import Mathlib

/-!
Verification of the churn-bank ETL notebook.

The notebook's algorithmic core is embedded shallowly:

* `get_dummies` models `ETL.get_dummies` (pandas `pd.get_dummies` on one
  column, `pd.concat`, then `drop` of the original column);
* `QA_dummied_features` models the per-label count round-trip check;
* `chi2_contingency` models `scipy.stats.chi2_contingency` on the 2×k
  tables that `chi2_test` feeds it (Pearson statistic, Yates continuity
  correction when dof = 1, zero-expected-frequency guard);
* `chi2_sf` is the right tail of the chi-squared distribution, the
  documented contract of the scipy p-value;
* `buildContingency` models the outer merge with `fillna(0)` and the
  `sort_index()` alignment used to build contingency tables;
* `arange`, `binValues`, `stayedTotal`, `exitedTotal` and `ageQAPasses`
  model the Age-binning cell (`np.arange`, `np.histogram`, the per-bin
  filter loop and its QA assert).

Dataframes are association lists from column names to columns (row order =
list order); cells are strings or rationals.  All integer/float arithmetic
of the notebook is exact rational arithmetic here.
-/

namespace ChurnBank

/-- A cell of a dataframe: the notebook's columns hold strings
(categorical) or numbers. -/
inductive Cell where
  | str : String → Cell
  | num : ℚ → Cell
deriving DecidableEq, Repr

/-- Rendering of a cell as in python string interpolation
(`f"{colname}_{label}"`); categorical labels are strings. -/
def Cell.render : Cell → String
  | .str s => s
  | .num q => toString q

/-- A dataframe: association list of column name to column values,
row order = list order.  (`pd.DataFrame`.) -/
def Frame : Type := List (String × List Cell)

/-- First column with the given name (`df[colname]`). -/
def lookupCol : List (String × List Cell) → String → Option (List Cell)
  | [], _ => none
  | (a, b) :: t, k => if k = a then some b else lookupCol t k

/-- Numeric sum of a column (`df[...].sum()`); indicator columns hold
`Cell.num` values only. -/
def sumNum (col : List Cell) : ℚ :=
  (col.map fun c => match c with | .num q => q | .str _ => 0).sum

/-- Name of the indicator column for a label (`pd.get_dummies` with
`prefix=colname` names columns `colname_label`). -/
def dummyName (colname : String) (label : Cell) : String :=
  colname ++ "_" ++ label.render

/-- Indicator column for one label: 1 where the row's value equals the
label, else 0.  Row order follows the source column. -/
def indicatorCol (col : List Cell) (label : Cell) : List Cell :=
  col.map fun v => .num (if v = label then 1 else 0)

/-- `ETL.get_dummies df colname`: one-hot encode column `colname`.
`pd.get_dummies(df[colname], prefix=colname)` emits one indicator column
per distinct label present in the column (we keep first-occurrence order
of `dedup`; pandas sorts the labels, which affects none of the properties
below), `pd.concat([df, df_dummy], axis=1)` appends them after the
original columns, and `df.drop(colname, axis=1)` removes every column
named `colname`.  The input frame is not mutated: this is a pure
function of `df`. -/
def get_dummies (df : List (String × List Cell)) (colname : String) :
    List (String × List Cell) :=
  let col := (lookupCol df colname).getD []
  let dummies := col.dedup.map fun L => (dummyName colname L, indicatorCol col L)
  df.filter (fun p => p.1 ≠ colname) ++ dummies

/-- `QA_dummied_features data data_dummied col`: for each distinct label of
`data[col]` compare the label's count in the original column with the sum
of the corresponding indicator column of the encoded frame; the first
mismatch aborts with the label and both counts (the notebook prints the
label and the two counts, then fails the `assert`). -/
def QA_go (column : List Cell) (ddf : List (String × List Cell))
    (colname : String) : List Cell → Except (Cell × ℚ × ℚ) Unit
  | [] => .ok ()
  | L :: rest =>
    let dummied_count := sumNum ((lookupCol ddf (dummyName colname L)).getD [])
    let original_count : ℚ := column.count L
    if original_count = dummied_count then QA_go column ddf colname rest
    else .error (L, original_count, dummied_count)

/-- QA entry point: labels are the distinct values of the original column
(`data[col].value_counts().index`; iteration order is immaterial to the
properties proved below). -/
def QA_dummied_features (df ddf : List (String × List Cell))
    (colname : String) : Except (Cell × ℚ × ℚ) Unit :=
  let column := (lookupCol df colname).getD []
  QA_go column ddf colname column.dedup

lemma sumNum_indicatorCol (col : List Cell) (L : Cell) :
    sumNum (indicatorCol col L) = col.count L := by
  induction col with
  | nil => simp [sumNum, indicatorCol]
  | cons v t ih =>
    by_cases h : v = L
    · simp [sumNum, indicatorCol, h, List.count_cons] at ih ⊢
      rw [← ih]
      ring
    · have h' : ¬ (v == L) = true := by simpa using h
      simp [sumNum, indicatorCol, h, List.count_cons, h'] at ih ⊢
      exact ih

/-- **C2.** For every dataframe, encoded column and label occurring in that
column, `get_dummies` outputs an indicator column for the label whose sum
equals the number of rows whose value equals the label; and it adds
exactly one indicator column per distinct label (so a single-category
column yields exactly one indicator column, and a high-cardinality column
one per label). -/
theorem get_dummies_count_round_trip
    (df : List (String × List Cell)) (colname : String) (col : List Cell)
    (L : Cell) (hcol : lookupCol df colname = some col) (hL : L ∈ col) :
    (dummyName colname L, indicatorCol col L) ∈ get_dummies df colname ∧
      sumNum (indicatorCol col L) = col.count L ∧
      (get_dummies df colname).length
        = (df.filter (fun p => p.1 ≠ colname)).length + col.dedup.length := by
  refine ⟨?_, sumNum_indicatorCol col L, ?_⟩
  · have hmem : L ∈ col.dedup := List.mem_dedup.mpr hL
    have : (dummyName colname L, indicatorCol col L)
        ∈ col.dedup.map fun M => (dummyName colname M, indicatorCol col M) :=
      List.mem_map.mpr ⟨L, hmem, rfl⟩
    unfold get_dummies
    rw [hcol]
    exact List.mem_append_right _ this
  · unfold get_dummies
    rw [hcol]
    simp

/-- Witness for C2 at a concrete two-row frame. -/
theorem get_dummies_count_round_trip_witness :
    (dummyName "Gender" (.str "Male"), indicatorCol [.str "Male", .str "Female"] (.str "Male"))
        ∈ get_dummies [("Gender", [.str "Male", .str "Female"])] "Gender" ∧
      sumNum (indicatorCol [.str "Male", .str "Female"] (.str "Male"))
        = ([Cell.str "Male", Cell.str "Female"].count (.str "Male")) ∧
      (get_dummies [("Gender", [.str "Male", .str "Female"])] "Gender").length
        = ([("Gender", [Cell.str "Male", Cell.str "Female"])].filter
            (fun p => p.1 ≠ "Gender")).length
          + [Cell.str "Male", Cell.str "Female"].dedup.length :=
  get_dummies_count_round_trip [("Gender", [.str "Male", .str "Female"])]
    "Gender" [.str "Male", .str "Female"] (.str "Male") (by rfl) (by decide)

lemma lookupCol_mem {df : List (String × List Cell)} {k : String}
    {col : List Cell} (h : lookupCol df k = some col) : (k, col) ∈ df := by
  induction df with
  | nil => simp [lookupCol] at h
  | cons p t ih =>
    obtain ⟨a, b⟩ := p
    by_cases hk : k = a
    · subst hk
      unfold lookupCol at h
      rw [if_pos rfl] at h
      exact List.mem_cons.mpr (Or.inl (by rw [Option.some.inj h]))
    · refine List.mem_cons.mpr (Or.inr (ih ?_))
      unfold lookupCol at h
      simpa [hk] using h

lemma dummyName_ne (colname : String) (L : Cell) :
    dummyName colname L ≠ colname := by
  intro h
  have h2 := congrArg String.length h
  have h3 : ("_" : String).length = 1 := rfl
  simp only [dummyName, String.length_append, h3] at h2
  omega

/-- **C7.** One-hot encoding is a pure frame transformation: every column
other than the encoded one is kept with its contents (hence row order)
unchanged, every output column has the input row count, and no output
column bears the name of the removed categorical column.  The source
frame is a value the function never mutates (the embedding is purely
functional, mirroring that `pd.get_dummies`/`pd.concat`/`drop` all
allocate new frames). -/
theorem get_dummies_preserves_frame
    (df : List (String × List Cell)) (colname : String) (m : ℕ)
    (hlen : ∀ p ∈ df, (Prod.snd p).length = m)
    (hm : ∀ col, lookupCol df colname = some col → col.length = m) :
    (∀ p ∈ df, p.1 ≠ colname → p ∈ get_dummies df colname) ∧
      (∀ p ∈ get_dummies df colname, p.1 ≠ colname) ∧
      (∀ p ∈ get_dummies df colname, (Prod.snd p).length = m) ∧
      (∀ (col : List Cell) (L : Cell) (i : ℕ), lookupCol df colname = some col →
        (indicatorCol col L)[i]?
          = col[i]?.map fun v => Cell.num (if v = L then 1 else 0)) := by
  refine ⟨?_, ?_, ?_, ?_⟩
  · intro p hp hne
    exact List.mem_append_left _ (List.mem_filter.mpr ⟨hp, by simpa using hne⟩)
  · intro p hp
    rcases List.mem_append.mp hp with h | h
    · exact of_decide_eq_true (List.mem_filter.mp h).2
    · rcases List.mem_map.mp h with ⟨L, _, hL⟩
      rw [← hL]
      exact dummyName_ne colname L
  · intro p hp
    rcases List.mem_append.mp hp with h | h
    · exact hlen p (List.mem_filter.mp h).1
    · rcases List.mem_map.mp h with ⟨L, _, hL⟩
      cases hcase : lookupCol df colname with
      | none => simp [hcase] at h
      | some col =>
        rw [hcase] at hL h
        rw [← hL]
        simpa [indicatorCol] using hm col hcase
  · intro col L i _
    simp [indicatorCol]

/-- Witness for C7 at a concrete two-column, two-row frame. -/
theorem get_dummies_preserves_frame_witness :
    (∀ p ∈ [("Age", [Cell.num 42, Cell.num 41]),
            ("Gender", [Cell.str "Male", Cell.str "Female"])],
        p.1 ≠ "Gender" →
        p ∈ get_dummies [("Age", [Cell.num 42, Cell.num 41]),
            ("Gender", [Cell.str "Male", Cell.str "Female"])] "Gender") ∧
      (∀ p ∈ get_dummies [("Age", [Cell.num 42, Cell.num 41]),
            ("Gender", [Cell.str "Male", Cell.str "Female"])] "Gender",
        p.1 ≠ "Gender") ∧
      (∀ p ∈ get_dummies [("Age", [Cell.num 42, Cell.num 41]),
            ("Gender", [Cell.str "Male", Cell.str "Female"])] "Gender",
        (Prod.snd p).length = 2) ∧
      (∀ (col : List Cell) (L : Cell) (i : ℕ),
        lookupCol [("Age", [Cell.num 42, Cell.num 41]),
            ("Gender", [Cell.str "Male", Cell.str "Female"])] "Gender" = some col →
        (indicatorCol col L)[i]?
          = col[i]?.map fun v => Cell.num (if v = L then 1 else 0)) :=
  get_dummies_preserves_frame
    [("Age", [Cell.num 42, Cell.num 41]),
     ("Gender", [Cell.str "Male", Cell.str "Female"])] "Gender" 2
    (by decide) (by intro col h; cases h; rfl)

lemma QA_go_error (column : List Cell) (ddf : List (String × List Cell))
    (colname : String) (labels : List Cell)
    (hmis : ∃ L ∈ labels,
      (column.count L : ℚ)
        ≠ sumNum ((lookupCol ddf (dummyName colname L)).getD [])) :
    ∃ L e a, QA_go column ddf colname labels = .error (L, e, a) ∧
      e = (column.count L : ℚ) ∧
      a = sumNum ((lookupCol ddf (dummyName colname L)).getD []) ∧ e ≠ a := by
  induction labels with
  | nil => simp at hmis
  | cons L rest ih =>
    by_cases h : (column.count L : ℚ)
        = sumNum ((lookupCol ddf (dummyName colname L)).getD [])
    · have hmis' : ∃ M ∈ rest, (column.count M : ℚ)
          ≠ sumNum ((lookupCol ddf (dummyName colname M)).getD []) := by
        rcases hmis with ⟨M, hM, hne⟩
        rcases List.mem_cons.mp hM with rfl | hM'
        · exact absurd h hne
        · exact ⟨M, hM', hne⟩
      rcases ih hmis' with ⟨M, e, a, hrun, he, ha, hne⟩
      exact ⟨M, e, a, by simpa [QA_go, h] using hrun, he, ha, hne⟩
    · exact ⟨L, _, _, by simp [QA_go, h], rfl, rfl, h⟩

/-- **C6.** If some label of the encoded column has an indicator-column sum
that differs from the label's occurrence count in the original column,
the QA validator fails — an `Except.error` carrying the offending label,
the expected count and the actual count (the notebook prints exactly these
and then fails its `assert`, so the raised error propagates and aborts the
run). -/
theorem QA_dummied_features_mismatch_fails
    (df ddf : List (String × List Cell)) (colname : String)
    (column : List Cell) (hcol : lookupCol df colname = some column)
    (hmis : ∃ L ∈ column,
      (column.count L : ℚ)
        ≠ sumNum ((lookupCol ddf (dummyName colname L)).getD [])) :
    ∃ L e a, QA_dummied_features df ddf colname = .error (L, e, a) ∧
      e = (column.count L : ℚ) ∧
      a = sumNum ((lookupCol ddf (dummyName colname L)).getD []) ∧ e ≠ a := by
  have hmis' : ∃ L ∈ column.dedup, (column.count L : ℚ)
      ≠ sumNum ((lookupCol ddf (dummyName colname L)).getD []) := by
    rcases hmis with ⟨L, hL, hne⟩
    exact ⟨L, List.mem_dedup.mpr hL, hne⟩
  rcases QA_go_error column ddf colname column.dedup hmis' with
    ⟨L, e, a, hrun, he, ha, hne⟩
  refine ⟨L, e, a, ?_, he, ha, hne⟩
  unfold QA_dummied_features
  rw [hcol]
  exact hrun

/-- Witness for C6: one indicator cell of the encoding of a two-row column
is corrupted (a 1 flipped to 0), and QA reports the label with counts
2 (expected) versus 1 (actual). -/
theorem QA_dummied_features_mismatch_fails_witness :
    ∃ L e a, QA_dummied_features [("Gender", [.str "Male", .str "Male"])]
        [("Gender_Male", [.num 0, .num 1])] "Gender" = .error (L, e, a) ∧
      e = (([Cell.str "Male", Cell.str "Male"].count L : ℚ)) ∧
      a = sumNum ((lookupCol [("Gender_Male", [Cell.num 0, Cell.num 1])]
          (dummyName "Gender" L)).getD []) ∧ e ≠ a :=
  QA_dummied_features_mismatch_fails
    [("Gender", [.str "Male", .str "Male"])]
    [("Gender_Male", [.num 0, .num 1])] "Gender"
    [.str "Male", .str "Male"] (by rfl)
    ⟨.str "Male", by decide, by
      intro hcontra
      rw [show lookupCol [("Gender_Male", [Cell.num 0, Cell.num 1])]
            (dummyName "Gender" (Cell.str "Male")) = some [Cell.num 0, Cell.num 1] from rfl,
        show [Cell.str "Male", Cell.str "Male"].count (Cell.str "Male") = 2 from rfl] at hcontra
      norm_num [sumNum] at hcontra⟩

/-! ## The chi-squared significance test

`chi2_test(obs_stayed, obs_exited, alpha)` builds
`f_obs = np.asarray([obs_exited, obs_stayed])` and calls
`scipy.stats.chi2_contingency(f_obs)` with its defaults
(`correction=True`, Pearson statistic).  The embedding below follows the
scipy implementation on such a 2×k table: reject negative observations,
reject an empty table, compute expected frequencies as
row total × column total / grand total, reject a table whose expected
frequencies contain a zero, set dof = (2−1)·(k−1), return a zero
statistic when dof = 0, apply the Yates continuity correction
(`observed + 0.5 * sign(expected - observed)`) when dof = 1, and
otherwise return the plain Pearson statistic.  `alpha` is only used by
the notebook's `verbose` printing, never in the computation. -/

def nonnegMsg : String := "All values in observed must be nonnegative."

def noDataMsg : String := "No data; observed has size 0."

def degenerateMsg : String :=
  "The internally computed table of expected frequencies has a zero element."

/-- `np.sign` on rationals. -/
def npSign (x : ℚ) : ℚ := if 0 < x then 1 else if x < 0 then -1 else 0

/-- The tuple `(chi2_stat, n_dof, ex)` returned by `chi2_contingency`
(the p-value is the separate, real-valued `pValue` below). -/
structure Chi2Output where
  stat : ℚ
  dof : ℕ
  expectedRow0 : List ℚ
  expectedRow1 : List ℚ
deriving DecidableEq, Repr

/-- Column totals of the 2×k table `[row0, row1]`. -/
def colTotals (row0 row1 : List ℚ) : List ℚ :=
  (row0.zip row1).map fun p => p.1 + p.2

/-- One row of expected frequencies: row total × column total / grand. -/
def expectedRow (rowSum grand : ℚ) (cols : List ℚ) : List ℚ :=
  cols.map fun c => rowSum * c / grand

/-- Pearson term sum for one row: Σ (observed − expected)² / expected. -/
def pearsonStat (obs expected : List ℚ) : ℚ :=
  ((obs.zip expected).map fun p => (p.1 - p.2) ^ 2 / p.2).sum

/-- Yates-corrected observations: `observed + 0.5 * sign(expected − observed)`. -/
def yatesRow (obs expected : List ℚ) : List ℚ :=
  (obs.zip expected).map fun p => p.1 + (1 / 2) * npSign (p.2 - p.1)

/-- `scipy.stats.chi2_contingency` on the 2×k table `[row0, row1]`
(statistic, dof and expected table; defaults `correction=True`,
`lambda_ = Pearson`).  Errors model the `ValueError`s scipy raises. -/
def chi2_contingency (row0 row1 : List ℚ) : Except String Chi2Output :=
  if (row0 ++ row1).any (fun x => decide (x < 0)) then .error nonnegMsg
  else if row0.length + row1.length = 0 then .error noDataMsg
  else
    let cols := colTotals row0 row1
    let grand := row0.sum + row1.sum
    let exp0 := expectedRow row0.sum grand cols
    let exp1 := expectedRow row1.sum grand cols
    if (exp0 ++ exp1).any (fun e => decide (e = 0)) then .error degenerateMsg
    else
      let dof := cols.length - 1
      if dof = 0 then .ok ⟨0, 0, exp0, exp1⟩
      else if dof = 1 then
        .ok ⟨pearsonStat (yatesRow row0 exp0) exp0
              + pearsonStat (yatesRow row1 exp1) exp1, dof, exp0, exp1⟩
      else
        .ok ⟨pearsonStat row0 exp0 + pearsonStat row1 exp1, dof, exp0, exp1⟩

/-- `chi2_test(obs_stayed, obs_exited, alpha)`: the notebook stacks the
rows as `[obs_exited, obs_stayed]` and delegates to `chi2_contingency`;
`alpha` only affects the verbose printout. -/
def chi2_test (obs_stayed obs_exited : List ℚ) (_alpha : ℚ) :
    Except String Chi2Output :=
  chi2_contingency obs_exited obs_stayed

/-- Density of the chi-squared distribution with `k` degrees of freedom. -/
noncomputable def chi2_pdf (k : ℕ) (t : ℝ) : ℝ :=
  if 0 ≤ t then
    t ^ ((k : ℝ) / 2 - 1) * Real.exp (-t / 2)
      / (2 ^ ((k : ℝ) / 2) * Real.Gamma ((k : ℝ) / 2))
  else 0

/-- Right tail (survival function) of the chi-squared distribution:
the p-value contract of `scipy.stats.chi2.sf`. -/
noncomputable def chi2_sf (k : ℕ) (x : ℝ) : ℝ := ∫ t in Set.Ioi x, chi2_pdf k t

/-- The p-value scipy pairs with a `Chi2Output`: 1 in the degenerate
dof = 0 case, otherwise the right tail at the statistic. -/
noncomputable def pValue (r : Chi2Output) : ℝ :=
  if r.dof = 0 then 1 else chi2_sf r.dof (r.stat : ℝ)

/-- The notebook's significance decision: reject the null hypothesis
(`significant = true`) exactly when the p-value is below `alpha`. -/
def rejectNull (p alpha : ℝ) : Prop := p < alpha

lemma chi2_pdf_two (t : ℝ) (ht : 0 ≤ t) :
    chi2_pdf 2 t = Real.exp (-t / 2) / 2 := by
  unfold chi2_pdf
  rw [if_pos ht]
  have h0 : ((2 : ℕ) : ℝ) / 2 - 1 = 0 := by norm_num
  have h4 : ((2 : ℕ) : ℝ) / 2 = 1 := by norm_num
  rw [h0, h4, Real.rpow_zero, Real.rpow_one, Real.Gamma_one]
  ring

/-- With 2 degrees of freedom the right tail has the closed form
`exp (−x/2)`. -/
lemma chi2_sf_two (x : ℝ) (hx : 0 ≤ x) :
    chi2_sf 2 x = Real.exp (-(x / 2)) := by
  unfold chi2_sf
  rw [MeasureTheory.setIntegral_congr_fun measurableSet_Ioi
    (fun t (ht : t ∈ Set.Ioi x) => chi2_pdf_two t (le_of_lt (lt_of_le_of_lt hx ht)))]
  have h1 : ∀ t : ℝ, Real.exp (-t / 2) / 2
      = (fun u : ℝ => Real.exp (-u) / 2) ((1 / 2) * t) := by
    intro t
    show Real.exp (-t / 2) / 2 = Real.exp (-((1 / 2) * t)) / 2
    rw [show -t / 2 = -((1 / 2) * t) by ring]
  simp only [h1]
  rw [MeasureTheory.integral_comp_mul_left_Ioi (fun u : ℝ => Real.exp (-u) / 2) x
    (by norm_num : (0 : ℝ) < 1 / 2)]
  rw [MeasureTheory.integral_div, integral_exp_neg_Ioi]
  rw [show -((1 / 2) * x) = -(x / 2) by ring]
  rw [smul_eq_mul]
  ring

lemma colTotals_length (row0 row1 : List ℚ) (hlen : row1.length = row0.length) :
    (colTotals row0 row1).length = row0.length := by
  simp [colTotals, hlen]

lemma expectedRow_length (s g : ℚ) (cols : List ℚ) :
    (expectedRow s g cols).length = cols.length := by
  simp [expectedRow]

lemma expectedRow_getD (row0 row1 : List ℚ) (hlen : row1.length = row0.length)
    (s g : ℚ) (i : ℕ) (h : i < row0.length) :
    (expectedRow s g (colTotals row0 row1)).getD i 0
      = s * (row0.getD i 0 + row1.getD i 0) / g := by
  have hc : i < (colTotals row0 row1).length := by
    rw [colTotals_length _ _ hlen]; exact h
  have he : i < (expectedRow s g (colTotals row0 row1)).length := by
    rw [expectedRow_length]; exact hc
  have h1 : i < row1.length := by rw [hlen]; exact h
  rw [List.getD_eq_getElem _ _ he, List.getD_eq_getElem _ _ h,
    List.getD_eq_getElem _ _ h1]
  simp [expectedRow, colTotals]

lemma expectedRow_mem {row0 row1 : List ℚ} (hlen : row1.length = row0.length)
    {s g e : ℚ} (he : e ∈ expectedRow s g (colTotals row0 row1)) :
    ∃ i, i < row0.length ∧ e = s * (row0.getD i 0 + row1.getD i 0) / g := by
  rcases List.mem_iff_getElem.mp he with ⟨i, hi, hei⟩
  have hi' : i < row0.length := by
    have h2 := hi
    rwa [expectedRow_length, colTotals_length _ _ hlen] at h2
  refine ⟨i, hi', ?_⟩
  rw [← hei, ← List.getD_eq_getElem _ 0 hi, expectedRow_getD _ _ hlen _ _ _ hi']

/-- **C4.** On a 2×k table of nonnegative counts whose row and column
totals are all nonzero, the tester returns: expected frequencies
row total × column total / grand total, degrees of freedom
(2−1)·(k−1), for tables wider than 2×2 (k > 2, where scipy applies no
continuity correction) the plain Pearson statistic
Σ (observed − expected)²/expected over both rows, and a p-value that is
the right tail `chi2_sf` of the chi-squared distribution at the statistic
with those degrees of freedom. -/
theorem chi2_test_formulas
    (obs_stayed obs_exited : List ℚ) (alpha : ℚ)
    (hlen : obs_stayed.length = obs_exited.length)
    (h0 : ∀ x ∈ obs_exited, 0 ≤ x) (h1 : ∀ x ∈ obs_stayed, 0 ≤ x)
    (hr0 : obs_exited.sum ≠ 0) (hr1 : obs_stayed.sum ≠ 0)
    (hcol : ∀ i, i < obs_exited.length →
      obs_exited.getD i 0 + obs_stayed.getD i 0 ≠ 0) :
    ∃ r, chi2_test obs_stayed obs_exited alpha = .ok r ∧
      r.dof = (2 - 1) * (obs_exited.length - 1) ∧
      (∀ i, i < obs_exited.length →
        r.expectedRow0.getD i 0
          = obs_exited.sum * (obs_exited.getD i 0 + obs_stayed.getD i 0)
              / (obs_exited.sum + obs_stayed.sum) ∧
        r.expectedRow1.getD i 0
          = obs_stayed.sum * (obs_exited.getD i 0 + obs_stayed.getD i 0)
              / (obs_exited.sum + obs_stayed.sum)) ∧
      (2 < obs_exited.length →
        r.stat = pearsonStat obs_exited r.expectedRow0
              + pearsonStat obs_stayed r.expectedRow1) ∧
      (r.dof ≠ 0 → pValue r = chi2_sf r.dof (r.stat : ℝ)) := by
  have hg1 : ((obs_exited ++ obs_stayed).any fun x => decide (x < 0)) = false := by
    rw [List.any_eq_false]
    intro x hx
    simp only [decide_eq_true_eq, not_lt]
    rcases List.mem_append.mp hx with h | h
    · exact h0 x h
    · exact h1 x h
  have hne0 : obs_exited ≠ [] := by
    intro h
    rw [h] at hr0
    exact hr0 rfl
  have hg2 : ¬ (obs_exited.length + obs_stayed.length = 0) := by
    intro h
    exact hne0 (List.length_eq_zero.mp (by omega))
  have hs0 : 0 < obs_exited.sum := lt_of_le_of_ne (List.sum_nonneg h0) (Ne.symm hr0)
  have hs1 : 0 < obs_stayed.sum := lt_of_le_of_ne (List.sum_nonneg h1) (Ne.symm hr1)
  have hg : obs_exited.sum + obs_stayed.sum ≠ 0 := by
    have : 0 < obs_exited.sum + obs_stayed.sum := by linarith
    exact ne_of_gt this
  have hg3 : ((expectedRow obs_exited.sum (obs_exited.sum + obs_stayed.sum)
        (colTotals obs_exited obs_stayed)
      ++ expectedRow obs_stayed.sum (obs_exited.sum + obs_stayed.sum)
        (colTotals obs_exited obs_stayed)).any fun e => decide (e = 0)) = false := by
    rw [List.any_eq_false]
    intro e he
    simp only [decide_eq_true_eq]
    rcases List.mem_append.mp he with h | h
    · rcases expectedRow_mem hlen h with ⟨i, hi, hei⟩
      rw [hei]
      exact div_ne_zero (mul_ne_zero hr0 (hcol i hi)) hg
    · rcases expectedRow_mem hlen h with ⟨i, hi, hei⟩
      rw [hei]
      exact div_ne_zero (mul_ne_zero hr1 (hcol i hi)) hg
  have hkl : (colTotals obs_exited obs_stayed).length = obs_exited.length :=
    colTotals_length _ _ hlen
  unfold chi2_test
  simp only [chi2_contingency]
  rw [hg1, if_neg hg2, hg3]
  rw [if_neg (by simp : ¬ (false = true)), if_neg (by simp : ¬ (false = true))]
  by_cases hK0 : (colTotals obs_exited obs_stayed).length - 1 = 0
  · rw [if_pos hK0]
    refine ⟨_, rfl, ?_, ?_, ?_, ?_⟩
    · show 0 = (2 - 1) * (obs_exited.length - 1)
      rw [hkl] at hK0
      omega
    · intro i hi
      exact ⟨expectedRow_getD _ _ hlen _ _ _ hi, expectedRow_getD _ _ hlen _ _ _ hi⟩
    · intro h2k
      rw [hkl] at hK0
      omega
    · intro hdof
      exact absurd rfl hdof
  · rw [if_neg hK0]
    by_cases hK1 : (colTotals obs_exited obs_stayed).length - 1 = 1
    · rw [if_pos hK1]
      refine ⟨_, rfl, ?_, ?_, ?_, ?_⟩
      · show (colTotals obs_exited obs_stayed).length - 1
            = (2 - 1) * (obs_exited.length - 1)
        rw [hkl]
        omega
      · intro i hi
        exact ⟨expectedRow_getD _ _ hlen _ _ _ hi, expectedRow_getD _ _ hlen _ _ _ hi⟩
      · intro h2k
        rw [hkl] at hK1
        omega
      · intro hdof
        simp [pValue, hK1]
    · rw [if_neg hK1]
      refine ⟨_, rfl, ?_, ?_, ?_, ?_⟩
      · show (colTotals obs_exited obs_stayed).length - 1
            = (2 - 1) * (obs_exited.length - 1)
        rw [hkl]
        omega
      · intro i hi
        exact ⟨expectedRow_getD _ _ hlen _ _ _ hi, expectedRow_getD _ _ hlen _ _ _ hi⟩
      · intro _
        rfl
      · intro hdof
        simp only [pValue, if_neg hK0]

/-- Witness for C4 at the notebook's 2×3 Geography table. -/
theorem chi2_test_formulas_witness :
    ∃ r, chi2_test [4204, 1695, 2064] [810, 814, 413] (5 / 100) = .ok r ∧
      r.dof = (2 - 1) * (([(810 : ℚ), 814, 413] : List ℚ).length - 1) ∧
      (∀ i, i < ([(810 : ℚ), 814, 413] : List ℚ).length →
        r.expectedRow0.getD i 0
          = ([(810 : ℚ), 814, 413] : List ℚ).sum
              * (([(810 : ℚ), 814, 413] : List ℚ).getD i 0
                  + ([(4204 : ℚ), 1695, 2064] : List ℚ).getD i 0)
              / (([(810 : ℚ), 814, 413] : List ℚ).sum
                  + ([(4204 : ℚ), 1695, 2064] : List ℚ).sum) ∧
        r.expectedRow1.getD i 0
          = ([(4204 : ℚ), 1695, 2064] : List ℚ).sum
              * (([(810 : ℚ), 814, 413] : List ℚ).getD i 0
                  + ([(4204 : ℚ), 1695, 2064] : List ℚ).getD i 0)
              / (([(810 : ℚ), 814, 413] : List ℚ).sum
                  + ([(4204 : ℚ), 1695, 2064] : List ℚ).sum)) ∧
      (2 < ([(810 : ℚ), 814, 413] : List ℚ).length →
        r.stat = pearsonStat [810, 814, 413] r.expectedRow0
              + pearsonStat [4204, 1695, 2064] r.expectedRow1) ∧
      (r.dof ≠ 0 → pValue r = chi2_sf r.dof (r.stat : ℝ)) :=
  chi2_test_formulas [4204, 1695, 2064] [810, 814, 413] (5 / 100) rfl
    (by norm_num) (by norm_num) (by norm_num) (by norm_num)
    (by
      intro i hi
      have h3 : i < 3 := by simpa using hi
      interval_cases i <;> norm_num)

/-- **C3.** On a table of nonnegative counts that satisfies the
ContingencyTable well-formedness invariant (at least one observation, so
the grand total is positive) but has a zero row total or a zero column
total, the tester stops with the degenerate-table error — scipy's
zero-expected-frequency `ValueError`, the spec's `DegenerateTableError` —
and never returns a silently computed statistic. -/
theorem chi2_test_degenerate
    (obs_stayed obs_exited : List ℚ) (alpha : ℚ)
    (hlen : obs_stayed.length = obs_exited.length)
    (h0 : ∀ x ∈ obs_exited, 0 ≤ x) (h1 : ∀ x ∈ obs_stayed, 0 ≤ x)
    (hpos : 0 < obs_exited.sum + obs_stayed.sum)
    (hdeg : obs_exited.sum = 0 ∨ obs_stayed.sum = 0 ∨
      ∃ i, i < obs_exited.length ∧
        obs_exited.getD i 0 + obs_stayed.getD i 0 = 0) :
    chi2_test obs_stayed obs_exited alpha = .error degenerateMsg := by
  have hg1 : ((obs_exited ++ obs_stayed).any fun x => decide (x < 0)) = false := by
    rw [List.any_eq_false]
    intro x hx
    simp only [decide_eq_true_eq, not_lt]
    rcases List.mem_append.mp hx with h | h
    · exact h0 x h
    · exact h1 x h
  have hg2 : ¬ (obs_exited.length + obs_stayed.length = 0) := by
    intro h
    have he : obs_exited = [] := List.length_eq_zero.mp (by omega)
    have hs : obs_stayed = [] := List.length_eq_zero.mp (by omega)
    rw [he, hs] at hpos
    simp at hpos
  have hk0 : 0 < obs_exited.length := by
    rcases Nat.eq_zero_or_pos obs_exited.length with h | h
    · exact absurd (by omega) hg2
    · exact h
  have hg3 : ((expectedRow obs_exited.sum (obs_exited.sum + obs_stayed.sum)
        (colTotals obs_exited obs_stayed)
      ++ expectedRow obs_stayed.sum (obs_exited.sum + obs_stayed.sum)
        (colTotals obs_exited obs_stayed)).any fun e => decide (e = 0)) = true := by
    rw [List.any_eq_true]
    rcases hdeg with hr0 | hr1 | ⟨i, hi, hci⟩
    · refine ⟨(expectedRow obs_exited.sum (obs_exited.sum + obs_stayed.sum)
          (colTotals obs_exited obs_stayed)).getD 0 0,
        List.mem_append_left _ ?_, ?_⟩
      · have hl : 0 < (expectedRow obs_exited.sum (obs_exited.sum + obs_stayed.sum)
            (colTotals obs_exited obs_stayed)).length := by
          rw [expectedRow_length, colTotals_length _ _ hlen]
          exact hk0
        rw [List.getD_eq_getElem _ _ hl]
        exact List.getElem_mem hl
      · rw [expectedRow_getD _ _ hlen _ _ _ hk0, hr0]
        simp
    · refine ⟨(expectedRow obs_stayed.sum (obs_exited.sum + obs_stayed.sum)
          (colTotals obs_exited obs_stayed)).getD 0 0,
        List.mem_append_right _ ?_, ?_⟩
      · have hl : 0 < (expectedRow obs_stayed.sum (obs_exited.sum + obs_stayed.sum)
            (colTotals obs_exited obs_stayed)).length := by
          rw [expectedRow_length, colTotals_length _ _ hlen]
          exact hk0
        rw [List.getD_eq_getElem _ _ hl]
        exact List.getElem_mem hl
      · rw [expectedRow_getD _ _ hlen _ _ _ hk0, hr1]
        simp
    · refine ⟨(expectedRow obs_exited.sum (obs_exited.sum + obs_stayed.sum)
          (colTotals obs_exited obs_stayed)).getD i 0,
        List.mem_append_left _ ?_, ?_⟩
      · have hl : i < (expectedRow obs_exited.sum (obs_exited.sum + obs_stayed.sum)
            (colTotals obs_exited obs_stayed)).length := by
          rw [expectedRow_length, colTotals_length _ _ hlen]
          exact hi
        rw [List.getD_eq_getElem _ _ hl]
        exact List.getElem_mem hl
      · rw [expectedRow_getD _ _ hlen _ _ _ hi, hci]
        simp
  unfold chi2_test
  simp only [chi2_contingency]
  rw [hg1, if_neg hg2, hg3]
  rw [if_neg (by simp : ¬ (false = true)), if_pos rfl]

/-- Witness for C3: a 2×2 table whose negative-outcome row is entirely
zero (every category present only among exited customers). -/
theorem chi2_test_degenerate_witness :
    chi2_test [0, 0] [5, 3] (5 / 100) = .error degenerateMsg :=
  chi2_test_degenerate [0, 0] [5, 3] (5 / 100) rfl (by norm_num) (by norm_num)
    (by norm_num) (Or.inr (Or.inl (by norm_num)))

lemma exp_neg_half_small {x : ℝ} (hx : 300 ≤ x) :
    Real.exp (-(x / 2)) < 1 / 10 ^ 10 := by
  have h150 : (150 : ℝ) ≤ x / 2 := by linarith
  have h1 : Real.exp 150 ≤ Real.exp (x / 2) := Real.exp_le_exp.mpr h150
  have he : (2 : ℝ) ≤ Real.exp 1 := by
    have h9 := Real.exp_one_gt_d9
    linarith
  have h2 : (2 : ℝ) ^ (150 : ℕ) ≤ Real.exp 150 := by
    calc (2 : ℝ) ^ (150 : ℕ) ≤ Real.exp 1 ^ (150 : ℕ) :=
          pow_le_pow_left₀ (by norm_num) he 150
      _ = Real.exp ((150 : ℕ) * 1) := (Real.exp_nat_mul 1 150).symm
      _ = Real.exp 150 := by norm_num
  have h3 : (10 : ℝ) ^ (10 : ℕ) < (2 : ℝ) ^ (150 : ℕ) := by norm_num
  have h4 : (10 : ℝ) ^ (10 : ℕ) < Real.exp (x / 2) := by linarith
  rw [Real.exp_neg, one_div]
  exact inv_strictAnti₀ (by positivity) h4

/-- **C1.** The Geography reference scenario: on positive counts
(stayed) {France 4204, Germany 1695, Spain 2064} and negative counts
(exited) {France 810, Germany 814, Spain 413}, the test returns a
statistic strictly between 301.25 and 301.26 (the notebook prints
301.25534), 2 degrees of freedom, a p-value below 10⁻¹⁰ — far below
0.05 — and the null hypothesis is rejected (`significant = true`). -/
theorem chi2_test_geography_reference :
    ∃ r, chi2_test [4204, 1695, 2064] [810, 814, 413] (5 / 100) = .ok r ∧
      (301.25 : ℚ) < r.stat ∧ r.stat < (301.26 : ℚ) ∧
      r.dof = 2 ∧
      pValue r < 1 / 10 ^ 10 ∧
      rejectNull (pValue r) (5 / 100) := by
  have hok : chi2_test [4204, 1695, 2064] [810, 814, 413] (5 / 100)
      = .ok ⟨25378283301527270000 / 84241771677972727, 2,
        [5106759 / 5000, 5110833 / 10000, 5045649 / 10000],
        [19963241 / 5000, 19979167 / 10000, 19724351 / 10000]⟩ := by
    norm_num [chi2_test, chi2_contingency, colTotals, expectedRow, pearsonStat]
  refine ⟨_, hok, by norm_num, by norm_num, rfl, ?_, ?_⟩
  · show pValue ⟨25378283301527270000 / 84241771677972727, 2,
        [5106759 / 5000, 5110833 / 10000, 5045649 / 10000],
        [19963241 / 5000, 19979167 / 10000, 19724351 / 10000]⟩ < 1 / 10 ^ 10
    have hcast : (((25378283301527270000 / 84241771677972727 : ℚ)) : ℝ)
        = (25378283301527270000 / 84241771677972727 : ℝ) := by
      push_cast
      ring
    rw [pValue, if_neg (by norm_num)]
    show chi2_sf 2 (((25378283301527270000 / 84241771677972727 : ℚ)) : ℝ) < 1 / 10 ^ 10
    rw [hcast, chi2_sf_two _ (by norm_num)]
    exact exp_neg_half_small (by norm_num)
  · show pValue ⟨25378283301527270000 / 84241771677972727, 2,
        [5106759 / 5000, 5110833 / 10000, 5045649 / 10000],
        [19963241 / 5000, 19979167 / 10000, 19724351 / 10000]⟩ < 5 / 100
    have hcast : (((25378283301527270000 / 84241771677972727 : ℚ)) : ℝ)
        = (25378283301527270000 / 84241771677972727 : ℝ) := by
      push_cast
      ring
    rw [pValue, if_neg (by norm_num)]
    show chi2_sf 2 (((25378283301527270000 / 84241771677972727 : ℚ)) : ℝ) < 5 / 100
    rw [hcast, chi2_sf_two _ (by norm_num)]
    have h1 := exp_neg_half_small
      (x := (25378283301527270000 / 84241771677972727 : ℝ)) (by norm_num)
    have h2 : (1 : ℝ) / 10 ^ 10 < 5 / 100 := by norm_num
    linarith

/-! ## Building contingency tables

The notebook aligns the per-category counts of the two outcome groups
before testing: either by `value_counts().sort_index()` on both groups
(Geography, Gender, …) or, for `NumOfProducts`, by an outer
`pd.merge(..., how='outer')` followed by `fillna(0)` — pandas sorts the
join keys, so both routes produce the same table: one column per key
present in either mapping, sorted by label, with 0 for a missing side. -/

/-- Lookup in a count mapping (a `value_counts()` result: keys with
rational counts). -/
def lookupQ {α : Type*} [DecidableEq α] : List (α × ℚ) → α → Option ℚ
  | [], _ => none
  | (a, b) :: t, k => if k = a then some b else lookupQ t k

/-- The union of the two key sets, sorted (pandas sorts outer-join keys
and `sort_index()` sorts labels). -/
def sortedKeys {α : Type*} [LinearOrder α] (pos neg : List (α × ℚ)) : List α :=
  List.insertionSort (· ≤ ·) ((pos.map Prod.fst ++ neg.map Prod.fst).dedup)

/-- The aligned 2×k contingency table: one column per key of the union,
carrying the positive-group count and the negative-group count, with 0
substituted for a missing key (`fillna(0)`). -/
def buildContingency {α : Type*} [LinearOrder α] (pos neg : List (α × ℚ)) :
    List (α × ℚ × ℚ) :=
  (sortedKeys pos neg).map fun k =>
    (k, ((lookupQ pos k).getD 0, (lookupQ neg k).getD 0))

lemma lookupQ_eq_none_iff {α : Type*} [DecidableEq α] {l : List (α × ℚ)}
    {k : α} : lookupQ l k = none ↔ k ∉ l.map Prod.fst := by
  induction l with
  | nil => simp [lookupQ]
  | cons a t ih =>
    obtain ⟨a0, b0⟩ := a
    by_cases hk : k = a0
    · subst hk
      simp [lookupQ]
    · simp [lookupQ, hk, ih]

lemma lookupQ_mem {α : Type*} [DecidableEq α] {l : List (α × ℚ)} {k : α}
    {v : ℚ} (h : lookupQ l k = some v) : (k, v) ∈ l := by
  induction l with
  | nil => simp [lookupQ] at h
  | cons a t ih =>
    obtain ⟨a0, b0⟩ := a
    by_cases hk : k = a0
    · subst hk
      rw [lookupQ, if_pos rfl] at h
      exact List.mem_cons.mpr (Or.inl (by rw [Option.some.inj h]))
    · rw [lookupQ, if_neg hk] at h
      exact List.mem_cons.mpr (Or.inr (ih h))

lemma lookupQ_eq_some_of_mem {α : Type*} [DecidableEq α] {l : List (α × ℚ)}
    {k : α} {v : ℚ} (hnd : (l.map Prod.fst).Nodup) (hm : (k, v) ∈ l) :
    lookupQ l k = some v := by
  induction l with
  | nil => simp at hm
  | cons a t ih =>
    obtain ⟨a0, b0⟩ := a
    rcases List.mem_cons.mp hm with h | h
    · rw [Prod.mk.injEq] at h
      rw [lookupQ, if_pos h.1, h.2]
    · have hk : k ≠ a0 := by
        intro hk
        subst hk
        have : k ∈ t.map Prod.fst := List.mem_map.mpr ⟨(k, v), h, rfl⟩
        exact (List.nodup_cons.mp (by simpa using hnd)).1 this
      rw [lookupQ, if_neg hk]
      exact ih (List.nodup_cons.mp (by simpa using hnd)).2 h

lemma lookupQ_perm {α : Type*} [DecidableEq α] {l l' : List (α × ℚ)}
    (hp : List.Perm l l') (hnd : (l.map Prod.fst).Nodup) (k : α) :
    lookupQ l k = lookupQ l' k := by
  have hnd' : (l'.map Prod.fst).Nodup := ((hp.map Prod.fst).nodup_iff).mp hnd
  cases hv : lookupQ l k with
  | some v =>
    exact (lookupQ_eq_some_of_mem hnd' (hp.subset (lookupQ_mem hv))).symm
  | none =>
    have hk : k ∉ l'.map Prod.fst := by
      intro hk
      exact lookupQ_eq_none_iff.mp hv ((hp.map Prod.fst).symm.subset hk)
    exact (lookupQ_eq_none_iff.mpr hk).symm

lemma sortedKeys_nodup {α : Type*} [LinearOrder α] (pos neg : List (α × ℚ)) :
    (sortedKeys pos neg).Nodup :=
  ((List.perm_insertionSort _ _).nodup_iff).mpr (List.nodup_dedup _)

lemma sortedKeys_sorted {α : Type*} [LinearOrder α] (pos neg : List (α × ℚ)) :
    (sortedKeys pos neg).Sorted (· ≤ ·) :=
  List.sorted_insertionSort _ _

lemma mem_sortedKeys {α : Type*} [LinearOrder α] {pos neg : List (α × ℚ)}
    {k : α} :
    k ∈ sortedKeys pos neg ↔ k ∈ pos.map Prod.fst ∨ k ∈ neg.map Prod.fst := by
  rw [sortedKeys, (List.perm_insertionSort _ _).mem_iff, List.mem_dedup,
    List.mem_append]

lemma sortedKeys_perm_eq {α : Type*} [LinearOrder α]
    {pos pos' neg neg' : List (α × ℚ)} (hp : List.Perm pos pos')
    (hn : List.Perm neg neg') :
    sortedKeys pos neg = sortedKeys pos' neg' := by
  refine List.eq_of_perm_of_sorted ?_ (sortedKeys_sorted _ _)
    (sortedKeys_sorted _ _)
  refine (List.perm_insertionSort _ _).trans (List.Perm.trans ?_
    (List.perm_insertionSort _ _).symm)
  exact ((hp.map Prod.fst).append (hn.map Prod.fst)).dedup

lemma buildContingency_keys {α : Type*} [LinearOrder α]
    (pos neg : List (α × ℚ)) :
    (buildContingency pos neg).map Prod.fst = sortedKeys pos neg := by
  rw [buildContingency, List.map_map]
  exact List.map_id _

/-- **C5.** The built table is the outer join of the two count mappings:
a column exists for a key iff the key occurs in either mapping; each
column carries the mapping's count on each side, with 0 substituted for a
missing side; the column labels are sorted and duplicate-free; and the
result is invariant under reordering of either input mapping
(deterministic column order). -/
theorem buildContingency_outer_join {α : Type*} [LinearOrder α]
    (pos neg pos' neg' : List (α × ℚ))
    (hndp : (pos.map Prod.fst).Nodup) (hndn : (neg.map Prod.fst).Nodup)
    (hp : List.Perm pos pos') (hn : List.Perm neg neg') :
    (∀ k : α, (∃ p n, (k, p, n) ∈ buildContingency pos neg) ↔
        k ∈ pos.map Prod.fst ∨ k ∈ neg.map Prod.fst) ∧
      (∀ (k : α) (p n : ℚ), (k, p, n) ∈ buildContingency pos neg →
        (lookupQ pos k = some p ∨ (k ∉ pos.map Prod.fst ∧ p = 0)) ∧
        (lookupQ neg k = some n ∨ (k ∉ neg.map Prod.fst ∧ n = 0))) ∧
      ((buildContingency pos neg).map Prod.fst).Sorted (· ≤ ·) ∧
      ((buildContingency pos neg).map Prod.fst).Nodup ∧
      buildContingency pos neg = buildContingency pos' neg' := by
  refine ⟨?_, ?_, ?_, ?_, ?_⟩
  · intro k
    constructor
    · rintro ⟨p, n, hmem⟩
      rcases List.mem_map.mp hmem with ⟨k', hk', hkeq⟩
      have : k' = k := congrArg Prod.fst hkeq
      rw [← mem_sortedKeys, ← this]
      exact hk'
    · intro hk
      exact ⟨_, _, List.mem_map.mpr ⟨k, mem_sortedKeys.mpr hk, rfl⟩⟩
  · intro k p n hmem
    rcases List.mem_map.mp hmem with ⟨k', _, hkeq⟩
    rw [Prod.mk.injEq] at hkeq
    obtain ⟨hk1, hk2⟩ := hkeq
    rw [Prod.mk.injEq] at hk2
    subst hk1
    constructor
    · cases hv : lookupQ pos k' with
      | some v =>
        left
        rw [hv] at hk2
        simp only [Option.getD_some] at hk2
        rw [hk2.1]
      | none =>
        right
        rw [hv] at hk2
        exact ⟨lookupQ_eq_none_iff.mp hv, hk2.1.symm⟩
    · cases hv : lookupQ neg k' with
      | some v =>
        left
        rw [hv] at hk2
        simp only [Option.getD_some] at hk2
        rw [hk2.2]
      | none =>
        right
        rw [hv] at hk2
        exact ⟨lookupQ_eq_none_iff.mp hv, hk2.2.symm⟩
  · rw [buildContingency_keys]
    exact sortedKeys_sorted pos neg
  · rw [buildContingency_keys]
    exact sortedKeys_nodup pos neg
  · rw [buildContingency, buildContingency, sortedKeys_perm_eq hp hn]
    refine List.map_congr_left fun k _ => ?_
    rw [lookupQ_perm hp hndp k, lookupQ_perm hn hndn k]

/-- The NumOfProducts-style count mappings used as the C5 witness, in two
input orders. -/
def posCounts0 : List (ℚ × ℚ) := [(1, 1409), (2, 348)]

def negCounts0 : List (ℚ × ℚ) := [(1, 3675), (2, 4242), (3, 220)]

def posCounts1 : List (ℚ × ℚ) := [(2, 348), (1, 1409)]

def negCounts1 : List (ℚ × ℚ) := [(2, 4242), (1, 3675), (3, 220)]

/-- Witness for C5: the NumOfProducts-style mappings given in reversed
orders produce the same sorted, zero-filled table. -/
theorem buildContingency_outer_join_witness :
    (∀ k : ℚ, (∃ p n, (k, p, n) ∈ buildContingency posCounts0 negCounts0) ↔
        k ∈ posCounts0.map Prod.fst ∨ k ∈ negCounts0.map Prod.fst) ∧
      (∀ (k p n : ℚ), (k, p, n) ∈ buildContingency posCounts0 negCounts0 →
        (lookupQ posCounts0 k = some p ∨
          (k ∉ posCounts0.map Prod.fst ∧ p = 0)) ∧
        (lookupQ negCounts0 k = some n ∨
          (k ∉ negCounts0.map Prod.fst ∧ n = 0))) ∧
      ((buildContingency posCounts0 negCounts0).map Prod.fst).Sorted (· ≤ ·) ∧
      ((buildContingency posCounts0 negCounts0).map Prod.fst).Nodup ∧
      buildContingency posCounts0 negCounts0
        = buildContingency posCounts1 negCounts1 :=
  buildContingency_outer_join posCounts0 negCounts0 posCounts1 negCounts1
    (by norm_num [posCounts0]) (by norm_num [negCounts0])
    (List.Perm.swap _ _ _) (List.Perm.swap _ _ _)

/-! ## Age binning

The notebook bins ages with `np.histogram(data['Age'], np.arange(10,100,5))`
and then, per bin, counts stayed and exited customers with the filter
`(Exited == b) & (Age >= bin_edges[ii]) & (Age < bin_edges[ii+1])`.
`np.arange` stops strictly below its upper bound; `np.histogram` treats
every bin as half-open except the last, which is closed. -/

/-- `np.arange(start, stop, step)`: `start, start+step, …`, strictly below
`stop` (`ceil((stop − start)/step)` values). -/
def arange (start stop step : ℚ) : List ℚ :=
  (List.range (⌈(stop - start) / step⌉).toNat).map fun k : ℕ => start + (k : ℚ) * step

/-- One customer row: the age and the Exited flag (the label is binary in
the validated dataset). -/
structure Customer where
  age : ℚ
  exited : Bool
deriving DecidableEq, Repr

/-- The notebook's bin edges: `np.arange(10, 100, 5)` = 10, 15, …, 95. -/
def ageEdges : List ℚ := arange 10 100 5

/-- `np.histogram(vals, edges)` bin counts: bin `i` counts values in
`[e_i, e_{i+1})`, except the last bin, which is closed `[e_{n-2}, e_{n-1}]`. -/
def binValues (vals : List ℚ) (edges : List ℚ) : List ℕ :=
  (List.range (edges.length - 1)).map fun i =>
    if i + 2 = edges.length then
      (vals.filter fun v =>
        decide (edges.getD i 0 ≤ v ∧ v ≤ edges.getD (i + 1) 0)).length
    else
      (vals.filter fun v =>
        decide (edges.getD i 0 ≤ v ∧ v < edges.getD (i + 1) 0)).length

/-- The loop count
`data[(data['Exited'] == 0) & (Age >= e_i) & (Age < e_{i+1})].shape[0]`. -/
def stayedTotal (edges : List ℚ) (data : List Customer) (i : ℕ) : ℕ :=
  (data.filter fun r => decide (r.exited = false ∧
    edges.getD i 0 ≤ r.age ∧ r.age < edges.getD (i + 1) 0)).length

/-- The loop count
`data[(data['Exited'] == 1) & (Age >= e_i) & (Age < e_{i+1})].shape[0]`. -/
def exitedTotal (edges : List ℚ) (data : List Customer) (i : ℕ) : ℕ :=
  (data.filter fun r => decide (r.exited = true ∧
    edges.getD i 0 ≤ r.age ∧ r.age < edges.getD (i + 1) 0)).length

/-- `.values.all()` on a numpy counts vector: true iff every entry is
nonzero (numpy truthiness). -/
def npAll (l : List ℕ) : Bool := l.all fun x => decide (x ≠ 0)

/-- The notebook's QA assert
`assert data_bin[['stayed_total', 'exited_total']].sum(axis=1).values.all()
== data_bin['total_customers'].values.all()`: it compares the two
boolean `.all()` reductions, not the per-bin sums. -/
def ageQAPasses (data : List Customer) : Bool :=
  npAll ((List.range (ageEdges.length - 1)).map fun i =>
      stayedTotal ageEdges data i + exitedTotal ageEdges data i)
    == npAll (binValues (data.map Customer.age) ageEdges)

lemma ageEdges_eval : ageEdges
    = [10, 15, 20, 25, 30, 35, 40, 45, 50, 55, 60, 65, 70, 75, 80, 85, 90, 95] := by
  have hcount : (⌈((100 : ℚ) - 10) / 5⌉).toNat = 18 := by
    norm_num
    decide
  rw [ageEdges, arange, hcount, show List.range 18
    = [0, 1, 2, 3, 4, 5, 6, 7, 8, 9, 10, 11, 12, 13, 14, 15, 16, 17] by decide]
  norm_num [List.cons.injEq]

/-- A dataset on which the per-bin identity fails while the QA assert
passes: a single customer aged exactly 95, the final bin edge. -/
def age95Data : List Customer := [⟨95, false⟩]

/-- **C10.** The Age-binning QA assert compares `.all()` booleans, not
per-bin values: on a customer aged exactly 95 the histogram's closed last
bin holds 1 while the loop's half-open last bin holds 0, so bin 16
violates `stayed_total + exited_total = total_customers`, yet the assert
passes (both `.all()` reductions are `false` because other bins are 0). -/
theorem ageQA_assert_blind :
    ageQAPasses age95Data = true ∧
      stayedTotal ageEdges age95Data 16 + exitedTotal ageEdges age95Data 16
        ≠ (binValues (age95Data.map Customer.age) ageEdges).getD 16 0 := by
  constructor
  · simp only [ageQAPasses, ageEdges_eval, age95Data]
    decide
  · simp only [ageEdges_eval, age95Data]
    decide

lemma stayed_add_exited (edges : List ℚ) (data : List Customer) (i : ℕ) :
    stayedTotal edges data i + exitedTotal edges data i
      = (data.filter fun r =>
          decide (edges.getD i 0 ≤ r.age ∧ r.age < edges.getD (i + 1) 0)).length := by
  rw [stayedTotal, exitedTotal]
  induction data with
  | nil => rfl
  | cons r t ih =>
    rw [List.filter_cons, List.filter_cons, List.filter_cons]
    by_cases hP : edges.getD i 0 ≤ r.age ∧ r.age < edges.getD (i + 1) 0
    · cases hr : r.exited with
      | false =>
        rw [if_pos (decide_eq_true (show (false : Bool) = false ∧
              edges.getD i 0 ≤ r.age ∧ r.age < edges.getD (i + 1) 0
              from ⟨rfl, hP⟩)),
          if_neg (show ¬ decide ((false : Bool) = true ∧ edges.getD i 0 ≤ r.age ∧
              r.age < edges.getD (i + 1) 0) = true
              from fun h => Bool.false_ne_true (of_decide_eq_true h).1),
          if_pos (decide_eq_true hP), List.length_cons, List.length_cons]
        omega
      | true =>
        rw [if_neg (show ¬ decide ((true : Bool) = false ∧ edges.getD i 0 ≤ r.age ∧
              r.age < edges.getD (i + 1) 0) = true
              from fun h => Bool.false_ne_true (of_decide_eq_true h).1.symm),
          if_pos (decide_eq_true (show (true : Bool) = true ∧
              edges.getD i 0 ≤ r.age ∧ r.age < edges.getD (i + 1) 0
              from ⟨rfl, hP⟩)),
          if_pos (decide_eq_true hP), List.length_cons, List.length_cons]
        omega
    · rw [if_neg (show ¬ decide (r.exited = false ∧ edges.getD i 0 ≤ r.age ∧
            r.age < edges.getD (i + 1) 0) = true
            from fun h => hP (of_decide_eq_true h).2),
        if_neg (show ¬ decide (r.exited = true ∧ edges.getD i 0 ≤ r.age ∧
            r.age < edges.getD (i + 1) 0) = true
            from fun h => hP (of_decide_eq_true h).2),
        if_neg (show ¬ decide (edges.getD i 0 ≤ r.age ∧
            r.age < edges.getD (i + 1) 0) = true
            from fun h => hP (of_decide_eq_true h))]
      exact ih

lemma arange_mem_lt (lower upper step : ℚ) (hs : 0 < step) (k : ℕ) :
    k < (⌈(upper - lower) / step⌉).toNat ↔ lower + k * step < upper := by
  rw [Int.lt_toNat, Int.lt_ceil, lt_div_iff₀ hs]
  constructor
  · intro h
    push_cast at h
    linarith
  · intro h
    push_cast
    linarith

lemma arange_length (lower upper step : ℚ) :
    (arange lower upper step).length = (⌈(upper - lower) / step⌉).toNat := by
  rw [arange, List.length_map, List.length_range]

lemma arange_getElem (lower upper step : ℚ) (j : ℕ)
    (hj : j < (arange lower upper step).length) :
    (arange lower upper step).get ⟨j, hj⟩ = lower + j * step := by
  unfold arange at hj ⊢
  simp

lemma arange_getD (lower upper step : ℚ) (j : ℕ)
    (hj : j < (arange lower upper step).length) :
    (arange lower upper step).getD j 0 = lower + j * step := by
  rw [List.getD_eq_getElem _ _ hj]
  exact arange_getElem lower upper step j hj

/-- Counterexample to C9 as stated: the notebook's call
`np.arange(10, 100, 5)` satisfies lower < upper and step > 0, yet every
edge it produces is strictly below the upper bound 100 — the promised
terminating edge ≥ 100 is never included (`np.arange` excludes its stop
value). -/
theorem arange_upper_never_included :
    (10 : ℚ) < 100 ∧ (0 : ℚ) < 5 ∧ ∀ e ∈ arange 10 100 5, e < 100 := by
  refine ⟨by norm_num, by norm_num, ?_⟩
  rw [show arange 10 100 5 = ageEdges from rfl, ageEdges_eval]
  decide

/-- **C9 (amended).** For every lower < upper and step > 0: the j-th edge
is lower + j·step; the edges are exactly those values lower + k·step that
lie strictly below the upper bound (the upper bound is never reached —
np.arange semantics — rather than ending at an edge ≥ it); the edge list
is nonempty; and the per-bin counting loop assigns every record to the
left-closed right-open interval [e_i, e_{i+1}). -/
theorem arange_bins (lower upper step : ℚ) (hlu : lower < upper)
    (hs : 0 < step) :
    (∀ j, (hj : j < (arange lower upper step).length) →
      (arange lower upper step).get ⟨j, hj⟩ = lower + j * step) ∧
      (∀ k : ℕ, lower + k * step ∈ arange lower upper step ↔
        lower + k * step < upper) ∧
      (∀ e ∈ arange lower upper step, e < upper) ∧
      arange lower upper step ≠ [] ∧
      (∀ (edges : List ℚ) (data : List Customer) (i : ℕ),
        stayedTotal edges data i + exitedTotal edges data i
          = (data.filter fun r =>
              decide (edges.getD i 0 ≤ r.age ∧
                r.age < edges.getD (i + 1) 0)).length) := by
  refine ⟨fun j hj => arange_getElem lower upper step j hj, ?_, ?_, ?_,
    fun edges data i => stayed_add_exited edges data i⟩
  · intro k
    constructor
    · intro hmem
      rcases List.mem_iff_get.mp hmem with ⟨⟨j, hj⟩, hval⟩
      rw [arange_getElem _ _ _ _ hj] at hval
      have hjk : (j : ℚ) = (k : ℚ) := by
        have hstep : (j : ℚ) * step = (k : ℚ) * step := by linarith
        exact mul_right_cancel₀ (ne_of_gt hs) hstep
      have hjk' : j = k := by exact_mod_cast hjk
      subst hjk'
      rw [← hval]
      rw [arange_length] at hj
      exact (arange_mem_lt lower upper step hs j).mp hj
    · intro hup
      have hk : k < (arange lower upper step).length := by
        rw [arange_length]
        exact (arange_mem_lt lower upper step hs k).mpr hup
      exact List.mem_iff_get.mpr ⟨⟨k, hk⟩, arange_getElem _ _ _ _ hk⟩
  · intro e he
    rcases List.mem_iff_get.mp he with ⟨⟨j, hj⟩, hval⟩
    rw [arange_getElem _ _ _ _ hj] at hval
    rw [← hval]
    have hj' := hj
    rw [arange_length] at hj'
    exact (arange_mem_lt lower upper step hs j).mp hj'
  · intro hnil
    have h0 : 0 < (arange lower upper step).length := by
      rw [arange_length]
      exact (arange_mem_lt lower upper step hs 0).mpr (by simpa using hlu)
    rw [hnil] at h0
    simp at h0

/-- Witness for the amended C9 at the notebook's bin parameters
(10, 100, 5). -/
theorem arange_bins_witness :
    (∀ j, (hj : j < (arange 10 100 5).length) →
      (arange 10 100 5).get ⟨j, hj⟩ = 10 + j * 5) ∧
      (∀ k : ℕ, (10 : ℚ) + k * 5 ∈ arange 10 100 5 ↔ (10 : ℚ) + k * 5 < 100) ∧
      (∀ e ∈ arange 10 100 5, e < 100) ∧
      arange 10 100 5 ≠ [] ∧
      (∀ (edges : List ℚ) (data : List Customer) (i : ℕ),
        stayedTotal edges data i + exitedTotal edges data i
          = (data.filter fun r =>
              decide (edges.getD i 0 ≤ r.age ∧
                r.age < edges.getD (i + 1) 0)).length) :=
  arange_bins 10 100 5 (by norm_num) (by norm_num)

lemma sum_lookupQ_toFinset {α : Type*} [DecidableEq α] (pos : List (α × ℚ)) :
    ∀ s : Finset α, (pos.map Prod.fst).Nodup →
      (∀ k ∈ pos.map Prod.fst, k ∈ s) →
      (∑ k ∈ s, (lookupQ pos k).getD 0) = (pos.map Prod.snd).sum := by
  induction pos with
  | nil =>
    intro s _ _
    simp [lookupQ]
  | cons a t ih =>
    intro s hnd hsub
    obtain ⟨a0, b0⟩ := a
    have hnd' : (t.map Prod.fst).Nodup :=
      (List.nodup_cons.mp (by simpa using hnd)).2
    have ha0 : a0 ∉ t.map Prod.fst :=
      (List.nodup_cons.mp (by simpa using hnd)).1
    have hupd : ∀ k, ((lookupQ ((a0, b0) :: t) k).getD 0)
        = Function.update (fun k => (lookupQ t k).getD 0) a0 b0 k := by
      intro k
      rw [Function.update_apply]
      by_cases hk : k = a0
      · subst hk
        rw [lookupQ, if_pos rfl, if_pos rfl]
        rfl
      · rw [lookupQ, if_neg hk, if_neg hk]
    rw [Finset.sum_congr rfl fun k _ => hupd k,
      Finset.sum_update_of_mem (hsub a0 (by simp))]
    have hz : (lookupQ t a0).getD 0 = 0 := by
      rw [lookupQ_eq_none_iff.mpr ha0]
      rfl
    have herase : ∑ x ∈ s.erase a0, (lookupQ t x).getD 0
        = ∑ x ∈ s, (lookupQ t x).getD 0 := Finset.sum_erase s hz
    rw [Finset.sdiff_singleton_eq_erase, herase,
      ih s hnd' fun k hk => hsub k (by simp [hk])]
    simp

lemma binValues_getD (vals : List ℚ) (edges : List ℚ) (i : ℕ)
    (hi : i < edges.length - 1) :
    (binValues vals edges).getD i 0
      = if i + 2 = edges.length then
          (vals.filter fun v =>
            decide (edges.getD i 0 ≤ v ∧ v ≤ edges.getD (i + 1) 0)).length
        else
          (vals.filter fun v =>
            decide (edges.getD i 0 ≤ v ∧ v < edges.getD (i + 1) 0)).length := by
  have hlen : i < (binValues vals edges).length := by
    rw [binValues, List.length_map, List.length_range]
    exact hi
  rw [List.getD_eq_getElem _ _ hlen]
  simp [binValues]

lemma age_bin_identity (data : List Customer) (hage : ∀ r ∈ data, r.age ≠ 95)
    (i : ℕ) (hi : i < ageEdges.length - 1) :
    stayedTotal ageEdges data i + exitedTotal ageEdges data i
      = (binValues (data.map Customer.age) ageEdges).getD i 0 := by
  rw [stayed_add_exited, binValues_getD _ _ _ hi]
  have hlen18 : ageEdges.length = 18 := by rw [ageEdges_eval]; rfl
  by_cases hlast : i + 2 = ageEdges.length
  · rw [if_pos hlast, List.filter_map, List.length_map]
    have hi16 : i = 16 := by omega
    subst hi16
    have h95 : ageEdges.getD 17 0 = 95 := by rw [ageEdges_eval]; rfl
    rw [h95]
    apply congrArg List.length
    apply List.filter_congr
    intro r hr
    show decide (ageEdges.getD 16 0 ≤ r.age ∧ r.age < 95)
        = decide (ageEdges.getD 16 0 ≤ r.age ∧ r.age ≤ 95)
    apply decide_eq_decide.mpr
    constructor
    · rintro ⟨h1, h2⟩
      exact ⟨h1, le_of_lt h2⟩
    · rintro ⟨h1, h2⟩
      exact ⟨h1, lt_of_le_of_ne h2 (hage r hr)⟩
  · rw [if_neg hlast, List.filter_map, List.length_map]
    rfl

/-- Counterexample to C8's Age-binning clause as stated: for the dataset
with one customer aged exactly 95, the last bin's stayed_total +
exited_total is 0 while its total_customers (np.histogram count, last bin
closed) is 1. -/
theorem age_bin_margin_fails_at_95 :
    stayedTotal ageEdges age95Data 16 + exitedTotal ageEdges age95Data 16 = 0 ∧
      (binValues (age95Data.map Customer.age) ageEdges).getD 16 0 = 1 := by
  constructor
  · simp only [ageEdges_eval, age95Data]
    decide
  · simp only [ageEdges_eval, age95Data]
    decide

/-- **C8 (amended).** For a contingency table built from two count
mappings: the sum of all cells equals the total positive count N plus the
total negative count M, and each column's two cells sum to that category's
total observation count (its positive count plus its negative count).  In
the Age binning, each bin's stayed_total + exited_total equals that bin's
total_customers provided no record's age equals the final bin edge 95
(np.histogram closes the last bin, the counting loop does not). -/
theorem contingency_margins {α : Type*} [LinearOrder α]
    (pos neg : List (α × ℚ))
    (hndp : (pos.map Prod.fst).Nodup) (hndn : (neg.map Prod.fst).Nodup)
    (data : List Customer) (hage : ∀ r ∈ data, r.age ≠ 95) :
    ((buildContingency pos neg).map fun e => e.2.1 + e.2.2).sum
        = (pos.map Prod.snd).sum + (neg.map Prod.snd).sum ∧
      (∀ (k : α) (p n : ℚ), (k, p, n) ∈ buildContingency pos neg →
        p + n = (lookupQ pos k).getD 0 + (lookupQ neg k).getD 0) ∧
      (∀ i, i < ageEdges.length - 1 →
        stayedTotal ageEdges data i + exitedTotal ageEdges data i
          = (binValues (data.map Customer.age) ageEdges).getD i 0) := by
  refine ⟨?_, ?_, fun i hi => age_bin_identity data hage i hi⟩
  · have hmap : (buildContingency pos neg).map (fun e => e.2.1 + e.2.2)
        = (sortedKeys pos neg).map fun k =>
            (lookupQ pos k).getD 0 + (lookupQ neg k).getD 0 := by
      rw [buildContingency, List.map_map]
      rfl
    rw [hmap, ← List.sum_toFinset _ (sortedKeys_nodup pos neg),
      Finset.sum_add_distrib,
      sum_lookupQ_toFinset pos _ hndp
        (fun k hk => List.mem_toFinset.mpr (mem_sortedKeys.mpr (Or.inl hk))),
      sum_lookupQ_toFinset neg _ hndn
        (fun k hk => List.mem_toFinset.mpr (mem_sortedKeys.mpr (Or.inr hk)))]
  · intro k p n hmem
    rcases List.mem_map.mp hmem with ⟨k', _, hkeq⟩
    rw [Prod.mk.injEq] at hkeq
    obtain ⟨hk1, hk2⟩ := hkeq
    rw [Prod.mk.injEq] at hk2
    subst hk1
    rw [← hk2.1, ← hk2.2]

/-- Witness for the amended C8 at concrete mappings and a concrete
dataset. -/
theorem contingency_margins_witness :
    ((buildContingency posCounts0 negCounts0).map fun e => e.2.1 + e.2.2).sum
        = (posCounts0.map Prod.snd).sum + (negCounts0.map Prod.snd).sum ∧
      (∀ (k p n : ℚ), (k, p, n) ∈ buildContingency posCounts0 negCounts0 →
        p + n = (lookupQ posCounts0 k).getD 0 + (lookupQ negCounts0 k).getD 0) ∧
      (∀ i, i < ageEdges.length - 1 →
        stayedTotal ageEdges [⟨30, false⟩] i + exitedTotal ageEdges [⟨30, false⟩] i
          = (binValues (([⟨30, false⟩] : List Customer).map Customer.age)
              ageEdges).getD i 0) :=
  contingency_margins posCounts0 negCounts0
    (by norm_num [posCounts0]) (by norm_num [negCounts0])
    [⟨30, false⟩] (by norm_num)

end ChurnBank
